import Mathlib

/-!
Verification of the Semantic Memory & Retrieval Engine of the
Chrome_Plugin_Web_Search_Engine repository.

The development shallowly embeds the two Python modules the specification's
testable properties are about:

* `memory.py` — the `MemoryManager` class (vector index + item store +
  highlight scorer + retrieval engine);
* `mcp_server.py` — `chunk_text` and `process_webpage` (chunker, dedup
  cache, index/metadata persistence).

Python strings are Lean `String`s (a `len` is the number of characters,
slices are `take`/`drop` over `toList`); Python ints are `ℤ`/`ℕ` (Python's
`max(0, a-b)` on naturals is `ℕ` truncated subtraction); floats produced by
Python's `/` are modelled exactly with `ℚ` (the score arithmetic of the
highlight scorer uses only a handful of small-denominator values, where
IEEE-754 comparison agrees with the exact rational comparison); exceptions
are `Except`/`Option` results.  External collaborators (the embedding
provider, the md5 hash) enter as explicit function parameters.  The FAISS
`IndexFlatL2` is modelled by its point list together with its fixed
dimension.
-/

/-! ## Python string primitives -/

/-- Worker for `pyWords`: scans the character list, accumulating the current
word reversed in `acc`, emitting it whenever a whitespace character or the
end of the input is reached.  This is Python's `str.split()` (split on
whitespace runs, dropping empty fields). -/
def pyWordsAux : List Char → List Char → List (List Char)
  | [], acc => if acc = [] then [] else [acc.reverse]
  | c :: cs, acc =>
    if c.isWhitespace then
      if acc = [] then pyWordsAux cs []
      else acc.reverse :: pyWordsAux cs []
    else pyWordsAux cs (c :: acc)

/-- Python `text.split()` with no separator argument: the maximal
whitespace-free runs of the text, in order. -/
def pyWords (l : List Char) : List (List Char) := pyWordsAux l []

/-- Worker for `rangeUp`, structurally recursive on a fuel argument so that
it evaluates by kernel reduction; `stop - start` fuel always suffices
because each step advances `start` by at least 1. -/
def rangeUpAux (stop step : ℕ) : ℕ → ℕ → List ℕ
  | 0, _ => []
  | fuel + 1, start =>
    if start < stop ∧ 0 < step then start :: rangeUpAux stop step fuel (start + step)
    else []

/-- Python `range(start, stop, step)` for a positive step: the list
`start, start+step, ...` of values below `stop`.  (The zero/negative-step
cases are handled at the call sites that model them.) -/
def rangeUp (stop step start : ℕ) : List ℕ := rangeUpAux stop step (stop - start) start

/-- Python `s.find(w)` on character lists, returning the first index at
which `w` occurs as a contiguous sublist (`none` for Python's `-1`).
Membership `w in s` is `(pyFindOpt s w).isSome`. -/
def pyFindOpt (s w : List Char) : Option ℕ :=
  (List.range (s.length + 1)).find? (fun i => (s.drop i).take w.length == w)

/-- Python slice `l[a:b]` for a non-negative start `a` and an arbitrary
(possibly negative) stop `b`: negative stops count from the end, and both
bounds are clamped to the list. -/
def pySliceFromTo {α : Type} (l : List α) (a : ℕ) (b : ℤ) : List α :=
  let stop : ℕ := if b < 0 then ((l.length : ℤ) + b).toNat else min b.toNat l.length
  (l.take stop).drop a

/-- Python `min(l)` over a nonempty list of naturals (`0` on the empty list,
which the source never reaches: it is guarded by `if matches == 0`). -/
def pyMin : List ℕ → ℕ
  | [] => 0
  | x :: xs => xs.foldl Nat.min x

/-- Python `max(l)` over a nonempty list of naturals (`0` on the empty list,
unreachable in the source for the same reason as `pyMin`). -/
def pyMax : List ℕ → ℕ
  | [] => 0
  | x :: xs => xs.foldl Nat.max x

/-- Python `l[i]` with Python's indexing convention: a negative `i` counts
from the end of the list.  Out-of-range access returns the default `d`
(the source guards the only call site so that, for the indices FAISS can
produce, the access is in range). -/
def pyGetD {α : Type} (l : List α) (i : ℤ) (d : α) : α :=
  if 0 ≤ i then l.getD i.toNat d else l.getD (l.length - (-i).toNat) d

/-- The lowercase expansion of one character under Python `str.lower()`
(full Unicode case mapping).  The only code point whose lowercase mapping
has more than one character is U+0130 (LATIN CAPITAL LETTER I WITH DOT
ABOVE), which lowercases to `"i"` + U+0307 (COMBINING DOT ABOVE) — so
`str.lower()` can *lengthen* a string.  Every other code point maps to a
single character; those one-to-one values are approximated by
`Char.toLower` (exact on ASCII), which is immaterial for the span-bound
properties below: they depend only on the expansion lengths, and real
`str.lower()` also expands every character to at most two. -/
def pyCharLower (c : Char) : List Char :=
  if c.toNat = 0x130 then [Char.ofNat 0x69, Char.ofNat 0x307]
  else [c.toLower]

/-- Python `s.lower()` on character lists: the concatenation of the
per-character lowercase expansions.  Not length-preserving (U+0130). -/
def pyLower (l : List Char) : List Char := (l.map pyCharLower).flatten

/-! ## mcp_server.py: the chunker -/

/-- `CHUNK_SIZE` constant of mcp_server.py. -/
def CHUNK_SIZE : ℤ := 256

/-- `CHUNK_OVERLAP` constant of mcp_server.py. -/
def CHUNK_OVERLAP : ℤ := 40

/-- `chunk_text(text, size, overlap)` of mcp_server.py:

    words = text.split()
    for i in range(0, len(words), size - overlap):
        yield " ".join(words[i:i+size])

The `ValueError` that `range` raises for a zero step (surfacing when the
generator is first advanced, e.g. by `list(chunk_text(...))`) is the
`Except.error` case; a negative step makes `range` empty, so the generator
silently yields nothing. -/
def chunk_text (text : String) (size overlap : ℤ) : Except String (List String) :=
  let words := pyWords text.toList
  let step := size - overlap
  if step = 0 then Except.error "range() arg 3 must not be zero"
  else if step < 0 then Except.ok []
  else Except.ok ((rangeUp words.length step.toNat 0).map
    (fun i => String.mk (List.intercalate [' '] (pySliceFromTo words i ((i : ℤ) + size)))))

/-! ## FAISS `IndexFlatL2` -/

/-- A FAISS `IndexFlatL2`: the fixed dimension `d` chosen at construction
and the ordered point set.  Points are addressed by insertion position. -/
structure FaissIndexFlatL2 where
  d : ℕ
  vectors : List (List ℚ)
deriving Repr, DecidableEq

/-- `index.add(np.stack(vs))`: appends the batch `vs` to the point set.
`np.stack` plus the FAISS dimension assertion reject the batch (raising,
hence `Except.error`) unless every vector has the index dimension; on
failure the index is not mutated.  The batch is nonempty at every call
site (`np.stack([])` would itself raise). -/
def faissAddBatch (ix : FaissIndexFlatL2) (vs : List (List ℚ)) :
    Except String FaissIndexFlatL2 :=
  if vs.all (fun v => v.length == ix.d) then
    Except.ok ⟨ix.d, ix.vectors ++ vs⟩
  else Except.error "dimension mismatch"

/-- Squared L2 distance between two vectors (the `IndexFlatL2` metric). -/
def sqL2 (u v : List ℚ) : ℚ := (List.zipWith (fun a b => (a - b) ^ 2) u v).sum

/-- The distance FAISS reports for padding slots (`FLT_MAX`); its exact
value is irrelevant to every property below. -/
def faissPadDist : ℚ := (34028235 : ℚ) * 10 ^ 31

/-- Stable insertion of a `(distance, position)` pair into a
distance-sorted list: the new pair lands after every strictly closer pair
and before pairs at equal distance that were scored later. -/
def insertByDist (x : ℚ × ℤ) : List (ℚ × ℤ) → List (ℚ × ℤ)
  | [] => [x]
  | y :: ys => if y.1 < x.1 then y :: insertByDist x ys else x :: y :: ys

/-- Stable sort of `(distance, position)` pairs by ascending distance. -/
def sortByDist (l : List (ℚ × ℤ)) : List (ℚ × ℤ) := l.foldr insertByDist []

/-- `index.search(q, k)`: the `k` nearest stored vectors by squared L2
distance, as `(distance, position)` pairs in ascending distance (ties by
lower position: the sort is stable and scans positions in insertion
order).  When fewer than `k` vectors are stored, FAISS pads the result
with position `-1` (and distance `FLT_MAX`). -/
def faissSearch (ix : FaissIndexFlatL2) (q : List ℚ) (k : ℕ) : List (ℚ × ℤ) :=
  let scored := (List.range ix.vectors.length).map
    (fun i => (sqL2 q (ix.vectors.getD i []), (i : ℤ)))
  let sorted := (sortByDist scored).take k
  sorted ++ List.replicate (k - sorted.length) (faissPadDist, -1)

/-! ## memory.py: data model -/

/-- `MemoryItem` of models.py, restricted to the fields `MemoryManager`
reads or writes (`url`, `title`, `content`, `embedding`); the remaining
optional metadata fields (`text`, `type`, `tool_name`, `user_query`,
`tags`, `session_id`, `timestamp`) never influence `add`/`search` and are
omitted. -/
structure MemoryItem where
  url : String
  title : String
  content : String
  embedding : Option (List ℚ)
deriving Repr, DecidableEq

/-- `SearchQuery` of models.py (the filter fields are never read by
`MemoryManager.search` and are omitted). -/
structure SearchQuery where
  query : String
  top_k : ℕ
deriving Repr, DecidableEq

/-- `SearchResult` of models.py, restricted to the fields `search` sets. -/
structure SearchResult where
  url : String
  title : String
  content : String
  score : ℚ
  highlight_start : ℕ
  highlight_end : ℕ
deriving Repr, DecidableEq

/-- `SearchResponse` of models.py. -/
structure SearchResponse where
  results : List SearchResult
  total_matches : ℕ
deriving Repr, DecidableEq

/-- The mutable state of a `MemoryManager`: `self.index` (None until the
first insertion), `self.data`, `self.embeddings`. -/
structure MemoryManagerState where
  index : Option FaissIndexFlatL2
  data : List MemoryItem
  embeddings : List (List ℚ)
deriving Repr, DecidableEq

/-- The state `MemoryManager.__init__` builds. -/
def emptyMemoryManager : MemoryManagerState := ⟨none, [], []⟩

/-- `total_embeddings` field of `MemoryManager.get_stats()`:
`len(self.embeddings)`. -/
def total_embeddings (st : MemoryManagerState) : ℕ := st.embeddings.length

/-- `total_pages` field of `MemoryManager.get_stats()`: `len(self.data)`. -/
def total_pages (st : MemoryManagerState) : ℕ := st.data.length

/-- `self.index.ntotal` (0 when `self.index` is None). -/
def indexSize (st : MemoryManagerState) : ℕ :=
  match st.index with
  | none => 0
  | some ix => ix.vectors.length

/-! ## memory.py: `MemoryManager.add` -/

/-- `MemoryManager.add(item)`.  The embedding provider
(`self._get_embedding`, an HTTP call) is the explicit parameter `embed`;
its `Except.error` case is a raised `requests` exception.  The returned
pair is the state after the call together with the exception it raised, if
any: Python mutations performed before a raise survive it, so a failing
call can still change the state.  Mirroring the source order: the empty
content guard, then the embedding call, then the appends to
`self.embeddings` and `self.data`, then index initialization
(`faiss.IndexFlatL2(len(emb))` when `self.index` is None) and
`self.index.add(np.stack([emb]))`. -/
def MemoryManager.add (embed : String → Except String (List ℚ))
    (st : MemoryManagerState) (item : MemoryItem) :
    MemoryManagerState × Option String :=
  if item.content = "" then (st, none)
  else
    match embed item.content with
    | Except.error e => (st, some e)
    | Except.ok emb =>
      let item' := { item with embedding := some emb }
      let st1 : MemoryManagerState :=
        { st with embeddings := st.embeddings ++ [emb], data := st.data ++ [item'] }
      let ix0 := st1.index.getD ⟨emb.length, []⟩
      let st2 := { st1 with index := some ix0 }
      match faissAddBatch ix0 [emb] with
      | Except.error e => (st2, some e)
      | Except.ok ix1 => ({ st2 with index := some ix1 }, none)

/-- A sequence of `MemoryManager.add` calls (as `bulk_add` performs, or a
caller issuing them one by one).  The boolean records whether every call in
the sequence completed without raising. -/
def runAdds (embed : String → Except String (List ℚ)) :
    MemoryManagerState → List MemoryItem → MemoryManagerState × Bool
  | st, [] => (st, true)
  | st, item :: rest =>
    let p := MemoryManager.add embed st item
    let q := runAdds embed p.1 rest
    (q.1, p.2.isNone && q.2)

/-! ## memory.py: `MemoryManager._find_best_match` -/

/-- The query tokenization of `_find_best_match`:
`[w.lower() for w in query.split() if len(w) > 2]`. -/
def queryWordsOf (query : String) : List (List Char) :=
  ((pyWords query.toList).filter (fun w => 2 < w.length)).map
    (fun w => pyLower w)

/-- One iteration of the inner loop of `_find_best_match` (one window
offset `i` for a given `window_size`), acting on the running state
`(best_score, best_start, best_end)`.  `cl` is `content_lower`, `clen` is
`len(content)`.  Scores are exact rationals; `context_before` and
`context_after` are the literal 20s of the source, and Python's
`max(0, first_match - context_before)` is `ℕ` subtraction. -/
def windowStep (cl : List Char) (qwords : List (List Char)) (clen wsize : ℕ)
    (st : ℚ × ℕ × ℕ) (i : ℕ) : ℚ × ℕ × ℕ :=
  let window := (cl.drop i).take wsize
  let matchCount := (qwords.filter (fun w => (pyFindOpt window w).isSome)).length
  if matchCount = 0 then st
  else
    let match_positions := qwords.filterMap (fun w => pyFindOpt window w)
    let score0 : ℚ := matchCount * 2
    let score :=
      if match_positions ≠ [] then
        let proximity : ℚ := (wsize : ℚ) - ((pyMax match_positions : ℚ) - (pyMin match_positions : ℚ))
        let position_bonus : ℚ := 1 - (pyMin match_positions : ℚ) / (wsize : ℚ)
        score0 + proximity / (wsize : ℚ) + position_bonus
      else score0
    if st.1 < score then
      let first_match := pyMin match_positions
      let last_match := pyMax match_positions + (qwords.getLastD []).length
      (score, i + (first_match - 20), i + min clen (last_match + 20))
    else st

/-- `MemoryManager._find_best_match(content, query)`: the multi-window
highlight scorer.  Window sizes `[100, 200, 300]`, offsets
`range(0, len(content), window_size // 2)`, initial
`(best_score, best_start, best_end) = (-1, 0, 0)`. -/
def find_best_match (content query : String) : ℕ × ℕ :=
  let query_words := queryWordsOf query
  if query_words = [] then (0, 0)
  else
    let content_lower := pyLower content.toList
    let clen := content.toList.length
    let final := ([100, 200, 300] : List ℕ).foldl
      (fun st wsize =>
        (rangeUp clen (wsize / 2) 0).foldl (windowStep content_lower query_words clen wsize) st)
      ((-1 : ℚ), 0, 0)
    (final.2.1, final.2.2)

/-! ## memory.py: `MemoryManager.search` -/

/-- The `SearchResult` that `search` appends for a surviving hit. -/
def mkSearchResult (q : SearchQuery) (item : MemoryItem) (score : ℚ) : SearchResult :=
  ⟨item.url, item.title, item.content, score,
    (find_best_match item.content q.query).1, (find_best_match item.content q.query).2⟩

/-- `MemoryManager.search(query)`.  The embedding call is the parameter
`embed` (an `Except.error` is the raised provider exception, which
propagates to the caller).  Empty index or empty data short-circuit to an
empty response.  The hit loop keeps every `(score, idx)` with
`idx < len(self.data)` — note that `self.data[idx]` uses Python indexing,
so FAISS's `-1` padding resolves to the *last* record. -/
def MemoryManager.search (embed : String → Except String (List ℚ))
    (st : MemoryManagerState) (q : SearchQuery) : Except String SearchResponse :=
  match st.index with
  | none => Except.ok ⟨[], 0⟩
  | some ix =>
    if st.data.length = 0 then Except.ok ⟨[], 0⟩
    else
      match embed q.query with
      | Except.error e => Except.error e
      | Except.ok qv =>
        let hits := faissSearch ix qv (q.top_k * 2)
        let results := hits.foldl
          (fun acc (hit : ℚ × ℤ) =>
            if (st.data.length : ℤ) ≤ hit.2 then acc
            else acc ++ [mkSearchResult q (pyGetD st.data hit.2 ⟨"", "", "", none⟩) hit.1])
          []
        Except.ok ⟨results, results.length⟩

/-! ## mcp_server.py: `process_webpage` -/

/-- One per-chunk record of `metadata.json`:
`{url, title, chunk, chunk_id, timestamp}`. -/
structure MetaRec where
  url : String
  title : String
  chunk : String
  chunk_id : String
  timestamp : String
deriving Repr, DecidableEq

/-- The persisted state `process_webpage` reads at entry and writes at
exit: `webpage_cache.json` (a `url -> content_hash` mapping, here an
association list), `metadata.json`, and `index.bin` (absent file =
`none`). -/
structure ServerState where
  cacheMeta : List (String × String)
  metadata : List MetaRec
  index : Option FaissIndexFlatL2
deriving Repr, DecidableEq

/-- Lookup in the `url -> content_hash` mapping. -/
def lookupCache (cache : List (String × String)) (url : String) : Option String :=
  (cache.find? (fun p => p.1 == url)).map (fun p => p.2)

/-- `CACHE_META[url] = h`: update-or-insert in the mapping. -/
def setCache : List (String × String) → String → String → List (String × String)
  | [], u, h => [(u, h)]
  | (k, v) :: rest, u, h =>
    if k == u then (k, h) :: rest else (k, v) :: setCache rest u h

/-- The accumulator of the chunk loop of `process_webpage`: the local
variables `embeddings_for_page`, `new_metadata`, `index`, `metadata`,
`CACHE_META` in source order. -/
structure ChunkLoopState where
  efp : List (List ℚ)
  newMeta : List MetaRec
  index : Option FaissIndexFlatL2
  metadata : List MetaRec
  cacheMeta : List (String × String)
deriving Repr, DecidableEq

/-- The chunk loop of `process_webpage`, transcribed with its actual
(mis)indentation: the `if embeddings_for_page:` block sits *inside* the
`for` loop, so every iteration adds the whole accumulated
`embeddings_for_page` batch to the index again, extends `metadata` with
the whole accumulated `new_metadata` again, and re-sets the cache entry.
`i` is the running `enumerate` counter; an embedding or FAISS failure
raises out of the inner `try` (the `Except.error` case). -/
def processChunksLoop (embed : String → Except String (List ℚ))
    (url title now hashv : String) :
    List String → ℕ → ChunkLoopState → Except String ChunkLoopState
  | [], _, acc => Except.ok acc
  | chunk :: rest, i, acc =>
    match embed chunk with
    | Except.error e => Except.error e
    | Except.ok emb =>
      let efp := acc.efp ++ [emb]
      let newMeta := acc.newMeta ++
        [⟨url, title, chunk, url ++ "_" ++ toString i, now⟩]
      if efp = [] then
        processChunksLoop embed url title now hashv rest (i + 1)
          ⟨efp, newMeta, acc.index, acc.metadata, acc.cacheMeta⟩
      else
        let ix0 := acc.index.getD ⟨(efp.headD []).length, []⟩
        match faissAddBatch ix0 efp with
        | Except.error e => Except.error e
        | Except.ok ix1 =>
          processChunksLoop embed url title now hashv rest (i + 1)
            ⟨efp, newMeta, some ix1, acc.metadata ++ newMeta, setCache acc.cacheMeta url hashv⟩

/-- `process_webpage(url, content, title)` of mcp_server.py.  `hashF` is
`hashlib.md5(...).hexdigest()`, `embed` is `get_embedding` (HTTP), `now`
is `datetime.now().isoformat()` — all external effects passed explicitly.
The result is the persisted state after the call and the returned boolean.
Control flow of the source: unchanged-content cache hit returns `True`
with nothing touched; any exception in the chunk/embed/index block returns
`False` with no file written; otherwise `webpage_cache.json` and
`metadata.json` are written, and `index.bin` is written (returning `True`)
only when the in-memory index exists and is nonempty — else the on-disk
index stays as it was and the call returns `False`. -/
def process_webpage (hashF : String → String)
    (embed : String → Except String (List ℚ)) (now : String)
    (st : ServerState) (url content title : String) : ServerState × Bool :=
  let hashv := hashF content
  if lookupCache st.cacheMeta url = some hashv then (st, true)
  else
    match chunk_text content CHUNK_SIZE CHUNK_OVERLAP with
    | Except.error _ => (st, false)
    | Except.ok chunks =>
      match processChunksLoop embed url title now hashv chunks 0
        ⟨[], [], st.index, st.metadata, st.cacheMeta⟩ with
      | Except.error _ => (st, false)
      | Except.ok acc =>
        match acc.index with
        | some ix =>
          if 0 < ix.vectors.length then
            (⟨acc.cacheMeta, acc.metadata, some ix⟩, true)
          else
            (⟨acc.cacheMeta, acc.metadata, st.index⟩, false)
        | none => (⟨acc.cacheMeta, acc.metadata, st.index⟩, false)

/-- The word-level chunks at indices `0, t, 2t, ...`: `words[i : i+s]` for
each loop index (`s` = chunk size, `t` = step, both in words). -/
def chunksIdx {α : Type} (s t : ℕ) (ws : List α) : List (List α) :=
  (rangeUp ws.length t 0).map (fun i => (ws.drop i).take s)

/-- Concatenation of chunks with the first `v` (overlap) elements removed
from every chunk after the first — the reconstruction operation of the
chunk-coverage property. -/
def joinChunksDropOverlap {α : Type} (v : ℕ) : List (List α) → List α
  | [] => []
  | c :: cs => c ++ (cs.map (fun w => w.drop v)).flatten

/-! ## Concrete instances used by witnesses and counterexamples -/

/-- An embedding provider that always returns the 2-dimensional vector
`[1, 2]`. -/
def embed2 : String → Except String (List ℚ) := fun _ => Except.ok [1, 2]

/-- An embedding provider that always returns the 3-dimensional vector
`[1, 2, 3]`. -/
def embed3 : String → Except String (List ℚ) := fun _ => Except.ok [1, 2, 3]

/-- An embedding provider that always fails (provider unreachable). -/
def embedFail : String → Except String (List ℚ) :=
  fun _ => Except.error "EmbeddingUnavailable"

/-- A record with non-empty content. -/
def itemA : MemoryItem := ⟨"http://a", "t", "hello", none⟩

/-- A `MemoryManager` state whose index dimension is established at `D = 2`,
holding one record. -/
def stC3 : MemoryManagerState :=
  ⟨some ⟨2, [[0, 0]]⟩, [⟨"u", "t", "c", some [0, 0]⟩], [[0, 0]]⟩

/-- A hash function used by concrete instances. -/
def hashC : String → String := fun _ => "h"

/-- A 1-dimensional embedding provider used by concrete instances. -/
def embedC : String → Except String (List ℚ) := fun _ => Except.ok [1]

/-- A persisted state that already caches `"u"` with hash `"h"`. -/
def stC6 : ServerState := ⟨[("u", "h")], [⟨"u", "t", "old", "u_0", "ts"⟩], some ⟨1, [[5]]⟩⟩

/-- A page text of 217 single-character words: with `CHUNK_SIZE = 256` and
`CHUNK_OVERLAP = 40` (step 216) it splits into exactly 2 chunks
(`words[0:256]` and `words[216:472]`). -/
def c4content : String := String.mk (List.intercalate [' '] (List.replicate 217 ['a']))

/-- A drifted state: the index holds one vector while the store holds two
records (the spec allows index/store drift after partial persistence). -/
def stC5 : MemoryManagerState :=
  ⟨some ⟨1, [[0]]⟩, [⟨"u1", "t1", "c1", some [0]⟩, ⟨"u2", "t2", "c2", some [0]⟩], [[0]]⟩

/-- A 1-dimensional embedding provider for the C5 instances. -/
def embedC5 : String → Except String (List ℚ) := fun _ => Except.ok [0]

/-- The default `top_k = 5` query (its words are all of length ≤ 2, so the
highlight scorer returns `(0, 0)` for every result). -/
def qC5 : SearchQuery := ⟨"zz", 5⟩

/-- The response `search` computes on `stC5`/`qC5`. -/
def respC5 : SearchResponse :=
  match MemoryManager.search embedC5 stC5 qC5 with
  | Except.ok r => r
  | Except.error _ => ⟨[], 0⟩

/-- A 60-character content whose only query hit sits near the end: 55
copies of `a`, then `zzz`, then `aa`. -/
def c1content : String := String.mk (List.replicate 55 'a' ++ ['z', 'z', 'z'] ++ ['a', 'a'])

/-- A 60-character content whose first 43 characters are U+0130, each of
which `str.lower()` expands to two characters: `content_lower` has length
103 while `len(content) = 60`. -/
def c1contentU : String :=
  String.mk (List.replicate 43 (Char.ofNat 0x130) ++ ['z', 'z', 'z'] ++ List.replicate 14 'a')

/-! ## C6 — unchanged-content cache hit is a no-op -/

/-- C6: for every URL already in the dedup cache with the stored hash equal
to the hash of the incoming content, `process_webpage` returns success and
leaves the persisted state untouched; the statement holds for *every*
embedding provider (universally quantified `embed`), so no embedding call
can influence the result — the call embeds nothing. -/
theorem c6_cache_hit_noop (hashF : String → String)
    (embed : String → Except String (List ℚ)) (now : String) (st : ServerState)
    (url content title : String)
    (h : lookupCache st.cacheMeta url = some (hashF content)) :
    process_webpage hashF embed now st url content title = (st, true) := by
  unfold process_webpage
  rw [if_pos h]

/-- C6 witness: the cache-hit no-op at a concrete state, URL and content. -/
theorem c6_witness :
    process_webpage hashC embedFail "now" stC6 "u" "fresh content" "t" = (stC6, true) :=
  c6_cache_hit_noop hashC embedFail "now" stC6 "u" "fresh content" "t" (by decide)

/-! ## C7 — chunker configurations with non-positive step -/

/-- C7 counterexample: with `size = 1 < 2 = overlap` (a configuration with
`size <= overlap`), the chunker does *not* fail fast: it silently yields an
empty sequence, refuting the claim that every such configuration raises a
configuration error. -/
theorem c7_counterexample : chunk_text "a b c" 1 2 = Except.ok [] := rfl

/-- C7 (amended): only `size = overlap` (step exactly zero) fails fast,
with the `ValueError` from `range`; `size < overlap` (negative step)
silently yields an empty sequence instead of failing; and empty input with
a valid configuration yields an empty sequence. -/
theorem c7_amended :
    (∀ (text : String) (size overlap : ℤ), size = overlap →
      chunk_text text size overlap = Except.error "range() arg 3 must not be zero") ∧
    (∀ (text : String) (size overlap : ℤ), size < overlap →
      chunk_text text size overlap = Except.ok []) ∧
    (∀ (size overlap : ℤ), overlap < size → chunk_text "" size overlap = Except.ok []) := by
  refine ⟨fun text size overlap h => ?_, fun text size overlap h => ?_,
    fun size overlap h => ?_⟩
  · subst h
    simp [chunk_text]
  · have h0 : size - overlap ≠ 0 := by omega
    have h1 : size - overlap < 0 := by omega
    simp [chunk_text, h0, h1]
  · have h0 : size - overlap ≠ 0 := by omega
    have h1 : ¬ size - overlap < 0 := by omega
    simp only [chunk_text, if_neg h0, if_neg h1]
    rfl

/-- C7 witness for the amended theorem: each of its three clauses applied
at a concrete configuration. -/
theorem c7_witness :
    chunk_text "x" 2 2 = Except.error "range() arg 3 must not be zero" ∧
    chunk_text "a b" 1 2 = Except.ok [] ∧
    chunk_text "" 3 1 = Except.ok [] :=
  ⟨c7_amended.1 "x" 2 2 rfl, c7_amended.2.1 "a b" 1 2 (by decide),
    c7_amended.2.2 3 1 (by decide)⟩

/-! ## C10 — embedding failure during `add` leaves the state unchanged -/

/-- C10: if the embedding provider fails on a record with non-empty
content, `add` raises that error and the state — index, data list and
embeddings list — is exactly the state before the call (the embedding call
precedes every mutation in the source). -/
theorem c10_add_embed_failure (embed : String → Except String (List ℚ))
    (st : MemoryManagerState) (item : MemoryItem) (e : String)
    (h1 : item.content ≠ "") (h2 : embed item.content = Except.error e) :
    MemoryManager.add embed st item = (st, some e) := by
  unfold MemoryManager.add
  rw [if_neg h1, h2]

/-- C10 witness: a failing provider on a concrete record and state. -/
theorem c10_witness :
    MemoryManager.add embedFail stC3 itemA = (stC3, some "EmbeddingUnavailable") :=
  c10_add_embed_failure embedFail stC3 itemA "EmbeddingUnavailable" (by decide) rfl

/-! ## C2 — there is no dedup by URL in `add` -/

/-- Shape of a call to `add` whose embedding succeeds: whatever the index
branch does, the record and its embedding are appended. -/
theorem add_ok_appends (embed : String → Except String (List ℚ))
    (st : MemoryManagerState) (item : MemoryItem) (emb : List ℚ)
    (h1 : item.content ≠ "") (h2 : embed item.content = Except.ok emb) :
    (MemoryManager.add embed st item).1.data
        = st.data ++ [{ item with embedding := some emb }] ∧
    (MemoryManager.add embed st item).1.embeddings = st.embeddings ++ [emb] := by
  unfold MemoryManager.add
  rw [if_neg h1, h2]
  dsimp only
  cases hfa : faissAddBatch ((st.index).getD ⟨emb.length, []⟩) [emb] with
  | error e => exact ⟨rfl, rfl⟩
  | ok ix1 => exact ⟨rfl, rfl⟩

/-- C2 counterexample: starting from the empty manager, two `add` calls
with the byte-identical record `itemA` (same URL, same content) leave the
store at size 2 — not 1 — and the second call raises `total_embeddings`
from 1 to 2.  The claimed dedup-by-url does not exist in the code: `add`
appends unconditionally. -/
theorem c2_counterexample :
    (MemoryManager.add embed2 (MemoryManager.add embed2 emptyMemoryManager itemA).1
        itemA).1.data.length = 2 ∧
    total_embeddings (MemoryManager.add embed2 emptyMemoryManager itemA).1 = 1 ∧
    total_embeddings (MemoryManager.add embed2
        (MemoryManager.add embed2 emptyMemoryManager itemA).1 itemA).1 = 2 := by
  refine ⟨rfl, rfl, rfl⟩

/-- C2 (amended): for every record with non-empty content whose embedding
succeeds, `add(r); add(r)` leaves the store size larger by exactly 2 and
`total_embeddings` larger by exactly 2 — each call appends, and no dedup by
URL takes place. -/
theorem c2_amended (embed : String → Except String (List ℚ))
    (st : MemoryManagerState) (item : MemoryItem) (emb : List ℚ)
    (h1 : item.content ≠ "") (h2 : embed item.content = Except.ok emb) :
    (MemoryManager.add embed (MemoryManager.add embed st item).1 item).1.data.length
        = st.data.length + 2 ∧
    total_embeddings (MemoryManager.add embed (MemoryManager.add embed st item).1 item).1
        = total_embeddings st + 2 := by
  obtain ⟨hd1, he1⟩ := add_ok_appends embed st item emb h1 h2
  obtain ⟨hd2, he2⟩ :=
    add_ok_appends embed (MemoryManager.add embed st item).1 item emb h1 h2
  unfold total_embeddings
  rw [hd2, hd1, he2, he1]
  simp

/-- C2 witness for the amended theorem: the concrete double-add of `itemA`
from the empty manager. -/
theorem c2_witness :
    (MemoryManager.add embed2 (MemoryManager.add embed2 emptyMemoryManager itemA).1
        itemA).1.data.length = emptyMemoryManager.data.length + 2 ∧
    total_embeddings (MemoryManager.add embed2
        (MemoryManager.add embed2 emptyMemoryManager itemA).1 itemA).1
      = total_embeddings emptyMemoryManager + 2 :=
  c2_amended embed2 emptyMemoryManager itemA [1, 2] (by decide) rfl

/-! ## C3 — dimension mismatch mutates the data and embeddings lists -/

/-- C3 counterexample: in the state `stC3` (index dimension `D = 2`, one
record), adding a record whose embedding has dimension 3 raises the FAISS
dimension error, and the vector index is indeed unchanged — but the data
list and the embeddings list have both grown from 1 to 2 entries, refuting
"leaves the whole structure unchanged". -/
theorem c3_counterexample :
    (MemoryManager.add embed3 stC3 itemA).2 = some "dimension mismatch" ∧
    (MemoryManager.add embed3 stC3 itemA).1.index = stC3.index ∧
    stC3.data.length = 1 ∧
    (MemoryManager.add embed3 stC3 itemA).1.data.length = 2 ∧
    total_embeddings stC3 = 1 ∧
    total_embeddings (MemoryManager.add embed3 stC3 itemA).1 = 2 := by
  refine ⟨rfl, rfl, rfl, rfl, rfl, rfl⟩

/-- C3 (amended): with an established index dimension `D`, an `add` whose
embedding has a different dimension fails and leaves the vector index
unchanged, but the data list gains the record and the embeddings list
gains the vector — the mutation happens before the failing index
insertion, so the failure is partial, not clean. -/
theorem c3_amended (embed : String → Except String (List ℚ))
    (st : MemoryManagerState) (item : MemoryItem) (ix : FaissIndexFlatL2)
    (emb : List ℚ) (hix : st.index = some ix) (h1 : item.content ≠ "")
    (h2 : embed item.content = Except.ok emb) (hdim : emb.length ≠ ix.d) :
    MemoryManager.add embed st item =
      (⟨some ix, st.data ++ [{ item with embedding := some emb }],
        st.embeddings ++ [emb]⟩, some "dimension mismatch") := by
  unfold MemoryManager.add
  rw [if_neg h1, h2]
  dsimp only
  have hgd : ({ st with
      embeddings := st.embeddings ++ [emb],
      data := st.data ++ [{ item with embedding := some emb }] }
        : MemoryManagerState).index.getD ⟨emb.length, []⟩ = ix := by
    simp [hix]
  rw [hgd]
  have hfa : faissAddBatch ix [emb] = Except.error "dimension mismatch" := by
    unfold faissAddBatch
    have : ([emb].all (fun v => v.length == ix.d)) = false := by
      simp [List.all, hdim]
    rw [this]
    rfl
  rw [hfa]

/-- C3 witness for the amended theorem: the concrete mismatched add on
`stC3`. -/
theorem c3_witness :
    MemoryManager.add embed3 stC3 itemA =
      (⟨some ⟨2, [[0, 0]]⟩,
        stC3.data ++ [{ itemA with embedding := some [1, 2, 3] }],
        stC3.embeddings ++ [[1, 2, 3]]⟩, some "dimension mismatch") :=
  c3_amended embed3 stC3 itemA ⟨2, [[0, 0]]⟩ [1, 2, 3] rfl (by decide) rfl (by decide)

/-! ## C9 — index/store lock-step alignment over sequences of adds -/

/-- A call to `add` that completes without raising on a record with
non-empty content grows all three components — data list, embeddings list
and vector index — by exactly one. -/
theorem add_success_lengths (embed : String → Except String (List ℚ))
    (st st' : MemoryManagerState) (item : MemoryItem)
    (h1 : item.content ≠ "") (h : MemoryManager.add embed st item = (st', none)) :
    st'.data.length = st.data.length + 1 ∧
    st'.embeddings.length = st.embeddings.length + 1 ∧
    indexSize st' = indexSize st + 1 := by
  unfold MemoryManager.add at h
  rw [if_neg h1] at h
  cases hemb : embed item.content with
  | error e => rw [hemb] at h; exact absurd (congrArg Prod.snd h) (by simp)
  | ok emb =>
    rw [hemb] at h
    dsimp only at h
    cases hfa : faissAddBatch ((st.index).getD ⟨emb.length, []⟩) [emb] with
    | error e => rw [hfa] at h; exact absurd (congrArg Prod.snd h) (by simp)
    | ok ix1 =>
      rw [hfa] at h
      have hst' : st' = { st with
          index := some ix1,
          embeddings := st.embeddings ++ [emb],
          data := st.data ++ [{ item with embedding := some emb }] } := by
        have := congrArg Prod.fst h
        exact this.symm
      have hix1 : ix1.vectors.length = ((st.index).getD ⟨emb.length, []⟩).vectors.length + 1 := by
        unfold faissAddBatch at hfa
        by_cases hall : ([emb].all (fun v => v.length == ((st.index).getD ⟨emb.length, []⟩).d)) = true
        · rw [if_pos hall] at hfa
          cases hfa
          simp
        · rw [if_neg hall] at hfa
          cases hfa
      have hgd : ((st.index).getD ⟨emb.length, []⟩).vectors.length = indexSize st := by
        cases hix : st.index with
        | none => simp [hix, indexSize]
        | some ix => simp [hix, indexSize]
      subst hst'
      refine ⟨by simp, by simp, ?_⟩
      show ix1.vectors.length = indexSize st + 1
      rw [hix1, hgd]

/-- `runAdds` grows the three components in lock-step when every call in
the sequence completes without raising and every record has non-empty
content. -/
theorem runAdds_lengths (embed : String → Except String (List ℚ)) :
    ∀ (items : List MemoryItem) (st st' : MemoryManagerState),
      (∀ it ∈ items, it.content ≠ "") → runAdds embed st items = (st', true) →
      st'.data.length = st.data.length + items.length ∧
      st'.embeddings.length = st.embeddings.length + items.length ∧
      indexSize st' = indexSize st + items.length := by
  intro items
  induction items with
  | nil =>
    intro st st' _ h
    cases h
    exact ⟨by simp, by simp, by simp⟩
  | cons item rest ih =>
    intro st st' hne h
    unfold runAdds at h
    dsimp only at h
    have hsnd := congrArg Prod.snd h
    simp only at hsnd
    have hfst := congrArg Prod.fst h
    simp only at hfst
    rw [Bool.and_eq_true] at hsnd
    have hnone : (MemoryManager.add embed st item).2 = none :=
      Option.isNone_iff_eq_none.mp hsnd.1
    have hadd : MemoryManager.add embed st item = ((MemoryManager.add embed st item).1, none) := by
      rw [← hnone]
    obtain ⟨hd, he, hi⟩ := add_success_lengths embed st
      (MemoryManager.add embed st item).1 item (hne item (by simp)) hadd
    have hrun : runAdds embed (MemoryManager.add embed st item).1 rest = (st', true) := by
      rw [Prod.ext_iff]
      exact ⟨hfst, hsnd.2⟩
    obtain ⟨hd2, he2, hi2⟩ := ih (MemoryManager.add embed st item).1 st'
      (fun it hit => hne it (by simp [hit])) hrun
    refine ⟨by simp [hd2, hd]; omega, by simp [he2, he]; omega, by simp [hi2, hi]; omega⟩

/-- C9 counterexample: a record with empty content makes `add` a silent
no-op that raises nothing — a sequence consisting of that one *successful*
call leaves all sizes at 0, not 1, refuting "size = N for every sequence
of N successful adds". -/
theorem c9_counterexample :
    runAdds embed2 emptyMemoryManager [⟨"u", "t", "", none⟩]
        = (emptyMemoryManager, true) ∧
    emptyMemoryManager.data.length = 0 ∧
    indexSize emptyMemoryManager = 0 := ⟨rfl, rfl, rfl⟩

/-- C9 (amended): for every sequence of N `add` calls from the empty
manager in which every call completes without raising *and every record
has non-empty content*, the vector index size, the data list length and
the embeddings list length all equal N.  (An `add` with empty content
completes successfully but inserts nothing, so it must be excluded.) -/
theorem c9_amended (embed : String → Except String (List ℚ))
    (items : List MemoryItem) (st' : MemoryManagerState)
    (hne : ∀ it ∈ items, it.content ≠ "")
    (h : runAdds embed emptyMemoryManager items = (st', true)) :
    st'.data.length = items.length ∧
    st'.embeddings.length = items.length ∧
    indexSize st' = items.length := by
  obtain ⟨hd, he, hi⟩ := runAdds_lengths embed items emptyMemoryManager st' hne h
  refine ⟨by simpa [emptyMemoryManager] using hd, by simpa [emptyMemoryManager] using he,
    by simpa [emptyMemoryManager, indexSize] using hi⟩

/-- C9 witness for the amended theorem: two concrete successful adds. -/
theorem c9_witness :
    (runAdds embed2 emptyMemoryManager [itemA, itemA]).1.data.length = 2 ∧
    (runAdds embed2 emptyMemoryManager [itemA, itemA]).1.embeddings.length = 2 ∧
    indexSize (runAdds embed2 emptyMemoryManager [itemA, itemA]).1 = 2 :=
  c9_amended embed2 [itemA, itemA] (runAdds embed2 emptyMemoryManager [itemA, itemA]).1
    (by decide) rfl

/-! ## C4 — per-chunk insertion is duplicated by the misindented loop -/

set_option maxRecDepth 100000 in
/-- C4 failing-input evaluation: ingesting `c4content` (2 chunks) from the
empty persisted state reports success, but the index receives **3**
vectors and `metadata.json` **3** records — chunk 0 is inserted twice —
because the `if embeddings_for_page:` update block is indented inside the
chunk loop, so iteration `i` re-adds the entire accumulated batch
`embeddings_for_page` and re-extends `metadata` with the entire
accumulated `new_metadata`.  The claim (each chunk inserted exactly once,
growth exactly `n = 2`) states the evident intent; the code contradicts
it. -/
theorem c4_code_bug_eval :
    (match chunk_text c4content CHUNK_SIZE CHUNK_OVERLAP with
      | Except.ok chunks => chunks.length
      | Except.error _ => 0) = 2 ∧
    (process_webpage hashC embedC "now" ⟨[], [], none⟩ "u" c4content "t").2 = true ∧
    (process_webpage hashC embedC "now" ⟨[], [], none⟩ "u" c4content "t").1.metadata.length
        = 3 ∧
    (match (process_webpage hashC embedC "now" ⟨[], [], none⟩ "u" c4content "t").1.index with
      | none => 0
      | some ix => ix.vectors.length) = 3 := by
  refine ⟨by rfl, by rfl, by rfl, by rfl⟩

/-! ## C5 — which hits become results -/

/-- Membership through `insertByDist`. -/
theorem mem_insertByDist (x a : ℚ × ℤ) :
    ∀ (l : List (ℚ × ℤ)), a ∈ insertByDist x l → a = x ∨ a ∈ l := by
  intro l
  induction l with
  | nil =>
    intro h
    simp [insertByDist] at h
    exact Or.inl h
  | cons y ys ih =>
    intro h
    unfold insertByDist at h
    by_cases hc : y.1 < x.1
    · rw [if_pos hc] at h
      rcases List.mem_cons.mp h with h1 | h1
      · exact Or.inr (List.mem_cons.mpr (Or.inl h1))
      · rcases ih h1 with h2 | h2
        · exact Or.inl h2
        · exact Or.inr (List.mem_cons.mpr (Or.inr h2))
    · rw [if_neg hc] at h
      rcases List.mem_cons.mp h with h1 | h1
      · exact Or.inl h1
      · exact Or.inr h1

/-- Membership through `sortByDist`. -/
theorem mem_sortByDist (a : ℚ × ℤ) :
    ∀ (l : List (ℚ × ℤ)), a ∈ sortByDist l → a ∈ l := by
  intro l
  induction l with
  | nil => intro h; simp [sortByDist] at h
  | cons y ys ih =>
    intro h
    rcases mem_insertByDist y a (sortByDist ys) h with h1 | h1
    · exact List.mem_cons.mpr (Or.inl h1)
    · exact List.mem_cons.mpr (Or.inr (ih h1))

/-- Every hit FAISS returns carries either a stored position (within the
point set) or the padding position `-1`. -/
theorem faissSearch_mem (ix : FaissIndexFlatL2) (q : List ℚ) (k : ℕ) (d : ℚ) (j : ℤ)
    (h : (d, j) ∈ faissSearch ix q k) :
    (0 ≤ j ∧ j.toNat < ix.vectors.length) ∨ j = -1 := by
  unfold faissSearch at h
  rcases List.mem_append.mp h with h1 | h1
  · have h2 := mem_sortByDist _ _ (List.take_subset _ _ h1)
    rcases List.mem_map.mp h2 with ⟨i, hi, he⟩
    have hj : (i : ℤ) = j := congrArg Prod.snd he
    left
    constructor
    · omega
    · have : i < ix.vectors.length := List.mem_range.mp hi
      omega
  · have h2 := List.eq_of_mem_replicate h1
    right
    exact congrArg Prod.snd h2

/-- The result accumulation loop of `search`: every result in its output
either was already in the accumulator or is built from some hit of the
list whose position passed the `idx >= len(self.data)` check. -/
theorem searchFold_mem (q : SearchQuery) (data : List MemoryItem) :
    ∀ (hits : List (ℚ × ℤ)) (acc : List SearchResult) (r : SearchResult),
      r ∈ hits.foldl (fun acc (hit : ℚ × ℤ) =>
        if (data.length : ℤ) ≤ hit.2 then acc
        else acc ++ [mkSearchResult q (pyGetD data hit.2 ⟨"", "", "", none⟩) hit.1]) acc →
      r ∈ acc ∨ ∃ hit ∈ hits, hit.2 < (data.length : ℤ) ∧
        r = mkSearchResult q (pyGetD data hit.2 ⟨"", "", "", none⟩) hit.1 := by
  intro hits
  induction hits with
  | nil => intro acc r h; exact Or.inl h
  | cons hit rest ih =>
    intro acc r h
    rw [List.foldl_cons] at h
    rcases ih _ r h with hacc | ⟨h2, hm, hlt, heq⟩
    · by_cases hle : (data.length : ℤ) ≤ hit.2
      · rw [if_pos hle] at hacc
        exact Or.inl hacc
      · rw [if_neg hle] at hacc
        rcases List.mem_append.mp hacc with h3 | h3
        · exact Or.inl h3
        · right
          exact ⟨hit, by simp, by omega, by simpa using h3⟩
    · right
      exact ⟨h2, by simp [hm], hlt, heq⟩

/-- `pyGetD` at a non-negative index is plain list indexing. -/
theorem pyGetD_nonneg {α : Type} (l : List α) (i : ℤ) (d : α) (h : 0 ≤ i) :
    pyGetD l i d = l.getD i.toNat d := by
  unfold pyGetD
  rw [if_pos h]

/-- `pyGetD` at `-1` is the last element (Python negative indexing). -/
theorem pyGetD_neg_one {α : Type} (l : List α) (d : α) :
    pyGetD l (-1) d = l.getD (l.length - 1) d := by
  unfold pyGetD
  rw [if_neg (by omega)]
  norm_num

/-- C5 (amended): every result `search` returns is built from a hit whose
position is either a valid store position in `[0, store.size())` — as the
claim says — or FAISS's padding position `-1`, which the
`idx >= len(self.data)` check does *not* skip: Python negative indexing
turns it into a result built from the **last** record.  Hits with
positions `>= store.size()` are indeed skipped. -/
theorem c5_amended (embed : String → Except String (List ℚ))
    (st : MemoryManagerState) (q : SearchQuery) (resp : SearchResponse)
    (h : MemoryManager.search embed st q = Except.ok resp) :
    ∀ r ∈ resp.results, ∃ (dist : ℚ) (j : ℤ),
      (0 ≤ j ∧ j.toNat < st.data.length ∧
        r = mkSearchResult q (st.data.getD j.toNat ⟨"", "", "", none⟩) dist) ∨
      (j = -1 ∧
        r = mkSearchResult q (st.data.getD (st.data.length - 1) ⟨"", "", "", none⟩) dist) := by
  intro r hr
  unfold MemoryManager.search at h
  cases hix : st.index with
  | none =>
    rw [hix] at h
    injection h with h'
    rw [← h'] at hr
    simp at hr
  | some ix =>
    rw [hix] at h
    dsimp only at h
    by_cases hlen : st.data.length = 0
    · rw [if_pos hlen] at h
      injection h with h'
      rw [← h'] at hr
      simp at hr
    · rw [if_neg hlen] at h
      cases hemb : embed q.query with
      | error e => rw [hemb] at h; cases h
      | ok qv =>
        rw [hemb] at h
        dsimp only at h
        injection h with h'
        rw [← h'] at hr
        rcases searchFold_mem q st.data (faissSearch ix qv (q.top_k * 2)) [] r hr with
          habs | ⟨hit, hmem, hlt, heq⟩
        · simp at habs
        · obtain ⟨d0, j0⟩ := hit
          rcases faissSearch_mem ix qv (q.top_k * 2) d0 j0 hmem with hpos | hneg
          · refine ⟨d0, j0, Or.inl ⟨hpos.1, by simp only at hlt; omega, ?_⟩⟩
            rw [heq]
            simp only
            rw [pyGetD_nonneg _ _ _ hpos.1]
          · refine ⟨d0, j0, Or.inr ⟨hneg, ?_⟩⟩
            rw [heq]
            simp only
            rw [hneg, pyGetD_neg_one]

/-- C5 counterexample: the index holds 1 vector, fewer than
`2 * top_k = 10`, so FAISS pads with nine `-1` hits.  Only one hit in the
whole hit list has a position inside `[0, store.size())`, yet `search`
returns **10** results — nine of them built from the padding hits via
negative indexing (their `url` is `"u2"`, the *last* record, which no
valid-position hit references).  This refutes "every hit whose position is
not a valid store position is skipped, never turned into a result". -/
theorem c5_counterexample :
    MemoryManager.search embedC5 stC5 qC5 = Except.ok respC5 ∧
    respC5.results.length = 10 ∧
    stC5.data.length = 2 ∧
    ((faissSearch ⟨1, [[0]]⟩ [0] (qC5.top_k * 2)).filter
        (fun hit => decide (0 ≤ hit.2) && decide (hit.2 < (stC5.data.length : ℤ)))).length
      = 1 ∧
    (respC5.results.getD 9 ⟨"", "", "", 0, 0, 0⟩).url = "u2" := by
  refine ⟨by rfl, by rfl, by rfl, by rfl, by rfl⟩

/-- C5 witness for the amended theorem: instantiated on the concrete
drifted state, applied to the tenth returned result. -/
theorem c5_witness :
    ∃ (dist : ℚ) (j : ℤ),
      (0 ≤ j ∧ j.toNat < stC5.data.length ∧
        respC5.results.getD 9 ⟨"", "", "", 0, 0, 0⟩
          = mkSearchResult qC5 (stC5.data.getD j.toNat ⟨"", "", "", none⟩) dist) ∨
      (j = -1 ∧
        respC5.results.getD 9 ⟨"", "", "", 0, 0, 0⟩
          = mkSearchResult qC5 (stC5.data.getD (stC5.data.length - 1) ⟨"", "", "", none⟩) dist) :=
  c5_amended embedC5 stC5 qC5 respC5 (by rfl)
    (respC5.results.getD 9 ⟨"", "", "", 0, 0, 0⟩)
    (by
      have h9 : 9 < respC5.results.length := by decide
      rw [List.getD_eq_getElem?_getD, List.getElem?_eq_getElem h9]
      simp)

/-! ## C8 — chunk coverage -/

/-- `rangeUpAux` does not depend on the fuel, once the fuel is sufficient. -/
theorem rangeUpAux_congr (stop step : ℕ) :
    ∀ (f1 f2 start : ℕ), stop - start ≤ f1 → stop - start ≤ f2 →
      rangeUpAux stop step f1 start = rangeUpAux stop step f2 start := by
  intro f1
  induction f1 with
  | zero =>
    intro f2 start h1 _
    cases f2 with
    | zero => rfl
    | succ g =>
      simp only [rangeUpAux]
      rw [if_neg (fun hc => by omega)]
  | succ f ih =>
    intro f2 start h1 h2
    cases f2 with
    | zero =>
      simp only [rangeUpAux]
      rw [if_neg (fun hc => by omega)]
    | succ g =>
      simp only [rangeUpAux]
      by_cases hc : start < stop ∧ 0 < step
      · rw [if_pos hc, if_pos hc]
        have := ih g (start + step) (by omega) (by omega)
        rw [this]
      · rw [if_neg hc, if_neg hc]

/-- The recurrence the Python loop satisfies: `range` emits `start` and
continues from `start + step` while `start < stop`. -/
theorem rangeUp_rec (stop step start : ℕ) :
    rangeUp stop step start =
      if start < stop ∧ 0 < step then start :: rangeUp stop step (start + step) else [] := by
  unfold rangeUp
  by_cases hc : start < stop ∧ 0 < step
  · rw [if_pos hc]
    cases hm : stop - start with
    | zero => exact absurd hc.1 (by omega)
    | succ m =>
      simp only [rangeUpAux]
      rw [if_pos hc]
      have := rangeUpAux_congr stop step m (stop - (start + step)) (start + step)
        (by omega) (by omega)
      rw [this]
  · rw [if_neg hc]
    cases hm : stop - start with
    | zero => rfl
    | succ m =>
      simp only [rangeUpAux]
      rw [if_neg hc]

/-- Every index the loop emits lies in `[start, stop)`. -/
theorem rangeUp_mem_bounds :
    ∀ (fuel stop step start : ℕ), stop - start ≤ fuel →
      ∀ i ∈ rangeUp stop step start, start ≤ i ∧ i < stop := by
  intro fuel
  induction fuel with
  | zero =>
    intro stop step start h i hi
    rw [rangeUp_rec, if_neg (fun hc : start < stop ∧ 0 < step => by omega)] at hi
    simp at hi
  | succ f ih =>
    intro stop step start h i hi
    rw [rangeUp_rec] at hi
    by_cases hc : start < stop ∧ 0 < step
    · rw [if_pos hc] at hi
      rcases List.mem_cons.mp hi with h1 | h1
      · omega
      · have := ih stop step (start + step) (by omega) i h1
        omega
    · rw [if_neg hc] at hi
      simp at hi

/-- `rangeUp_mem_bounds` with the fuel discharged. -/
theorem rangeUp_mem (stop step start i : ℕ) (hi : i ∈ rangeUp stop step start) :
    start ≤ i ∧ i < stop :=
  rangeUp_mem_bounds (stop - start) stop step start le_rfl i hi

/-- Shifting the loop start by one step drops one step's worth of `stop`. -/
theorem rangeUp_shift (t : ℕ) (ht : 0 < t) :
    ∀ (fuel n a : ℕ), n - a ≤ fuel →
      rangeUp n t (a + t) = (rangeUp (n - t) t a).map (fun j => j + t) := by
  intro fuel
  induction fuel with
  | zero =>
    intro n a h
    rw [rangeUp_rec n t (a + t), rangeUp_rec (n - t) t a]
    rw [if_neg (fun hc : a + t < n ∧ 0 < t => by omega),
      if_neg (fun hc : a < n - t ∧ 0 < t => by omega)]
    rfl
  | succ f ih =>
    intro n a h
    rw [rangeUp_rec n t (a + t), rangeUp_rec (n - t) t a]
    by_cases hc : a + t < n
    · rw [if_pos (⟨hc, ht⟩ : a + t < n ∧ 0 < t),
        if_pos (⟨by omega, ht⟩ : a < n - t ∧ 0 < t)]
      rw [List.map_cons]
      have := ih n (a + t) (by omega)
      rw [this]
    · rw [if_neg (fun hx : a + t < n ∧ 0 < t => hc hx.1),
        if_neg (fun hx : a < n - t ∧ 0 < t => by omega)]
      rfl

/-- Scanning a whitespace-free run prepends it (reversed) to the
accumulator. -/
theorem pyWordsAux_append (w : List Char) :
    ∀ (rest acc : List Char), (∀ c ∈ w, c.isWhitespace = false) →
      pyWordsAux (w ++ rest) acc = pyWordsAux rest (w.reverse ++ acc) := by
  induction w with
  | nil => intro rest acc _; simp
  | cons c cs ih =>
    intro rest acc hw
    have hc : c.isWhitespace = false := hw c (by simp)
    simp only [List.cons_append, pyWordsAux, hc, Bool.false_eq_true, if_false, List.append_eq]
    rw [ih rest (c :: acc) (fun x hx => hw x (by simp [hx]))]
    have : cs.reverse ++ (c :: acc) = (c :: cs).reverse ++ acc := by simp
    rw [this]

/-- Every word `pyWordsAux` emits is nonempty and whitespace-free, as long
as the accumulator is whitespace-free. -/
theorem pyWordsAux_props :
    ∀ (l acc : List Char), (∀ c ∈ acc, c.isWhitespace = false) →
      ∀ w ∈ pyWordsAux l acc, w ≠ [] ∧ ∀ c ∈ w, c.isWhitespace = false := by
  intro l
  induction l with
  | nil =>
    intro acc hacc w hw
    simp only [pyWordsAux] at hw
    by_cases ha : acc = []
    · rw [if_pos ha] at hw
      simp at hw
    · rw [if_neg ha] at hw
      have hww : w = acc.reverse := by simpa using hw
      subst hww
      refine ⟨by simpa using ha, fun c hc => hacc c (List.mem_reverse.mp hc)⟩
  | cons c cs ih =>
    intro acc hacc w hw
    simp only [pyWordsAux] at hw
    by_cases hwc : c.isWhitespace = true
    · rw [if_pos hwc] at hw
      by_cases ha : acc = []
      · rw [if_pos ha] at hw
        exact ih [] (by simp) w hw
      · rw [if_neg ha] at hw
        rcases List.mem_cons.mp hw with h1 | h1
        · subst h1
          refine ⟨by simpa using ha, fun x hx => hacc x (List.mem_reverse.mp hx)⟩
        · exact ih [] (by simp) w h1
    · rw [if_neg hwc] at hw
      refine ih (c :: acc) ?_ w hw
      intro x hx
      rcases List.mem_cons.mp hx with h1 | h1
      · subst h1
        simpa using hwc
      · exact hacc x h1

/-- Every word of a Python `split()` is nonempty and whitespace-free. -/
theorem pyWords_props (l : List Char) :
    ∀ w ∈ pyWords l, w ≠ [] ∧ ∀ c ∈ w, c.isWhitespace = false :=
  pyWordsAux_props l [] (by simp)

/-- Splitting the single-space join of nonempty whitespace-free words
gives back exactly those words (`" ".join(ws).split() == ws`). -/
theorem pyWords_intercalate :
    ∀ (ws : List (List Char)),
      (∀ w ∈ ws, w ≠ [] ∧ ∀ c ∈ w, c.isWhitespace = false) →
      pyWords (List.intercalate [' '] ws) = ws := by
  intro ws
  induction ws with
  | nil => intro _; rfl
  | cons w ws ih =>
    intro hws
    have hwne : w ≠ [] := (hws w (by simp)).1
    have hwfree : ∀ c ∈ w, c.isWhitespace = false := (hws w (by simp)).2
    cases ws with
    | nil =>
      have hic : List.intercalate [' '] [w] = w := by simp [List.intercalate]
      rw [hic]
      unfold pyWords
      have h0 : pyWordsAux w [] = pyWordsAux (w ++ []) [] := by rw [List.append_nil]
      rw [h0, pyWordsAux_append w [] [] hwfree]
      simp only [pyWordsAux, List.append_nil]
      rw [if_neg (by simpa using hwne)]
      rw [List.reverse_reverse]
    | cons w2 ws2 =>
      have hic : List.intercalate [' '] (w :: w2 :: ws2)
          = w ++ ' ' :: List.intercalate [' '] (w2 :: ws2) := by
        simp [List.intercalate, List.intersperse_cons_cons]
      rw [hic]
      unfold pyWords
      rw [pyWordsAux_append w (' ' :: List.intercalate [' '] (w2 :: ws2)) [] hwfree]
      simp only [pyWordsAux, List.append_nil]
      rw [if_pos (by decide : (' ' : Char).isWhitespace = true)]
      rw [if_neg (by simpa using hwne)]
      rw [List.reverse_reverse]
      have hrec : pyWordsAux (List.intercalate [' '] (w2 :: ws2)) []
          = pyWords (List.intercalate [' '] (w2 :: ws2)) := rfl
      rw [hrec, ih (fun x hx => hws x (by simp [hx]))]

/-- No input, no chunks. -/
theorem chunksIdx_nil {α : Type} (s t : ℕ) : chunksIdx s t ([] : List α) = [] := by
  unfold chunksIdx
  rw [rangeUp_rec]
  simp

/-- The chunk list of a nonempty input is its first `s` elements followed
by the chunk list of the input with one step dropped. -/
theorem chunksIdx_cons {α : Type} (s t : ℕ) (ht : 0 < t) (ws : List α) (hws : ws ≠ []) :
    chunksIdx s t ws = ws.take s :: chunksIdx s t (ws.drop t) := by
  unfold chunksIdx
  rw [rangeUp_rec]
  rw [if_pos ⟨List.length_pos.mpr hws, ht⟩]
  rw [List.map_cons]
  congr 1
  rw [rangeUp_shift t ht ws.length ws.length 0 (by omega), List.map_map]
  rw [List.length_drop]
  apply List.map_congr_left
  intro j _
  show List.take s (List.drop (j + t) ws) = List.take s (List.drop j (List.drop t ws))
  rw [List.drop_drop, Nat.add_comm t j]

/-- Dropping the overlap from *every* chunk and concatenating yields the
input with the overlap dropped once at the front. -/
theorem chunksIdx_drop_flatten {α : Type} (s v : ℕ) (hv : v < s) :
    ∀ (fuel : ℕ) (ws : List α), ws.length ≤ fuel →
      ((chunksIdx s (s - v) ws).map (fun c => c.drop v)).flatten = ws.drop v := by
  intro fuel
  induction fuel with
  | zero =>
    intro ws h
    have hnil : ws = [] := List.eq_nil_of_length_eq_zero (by omega)
    subst hnil
    rw [chunksIdx_nil]
    simp
  | succ f ih =>
    intro ws h
    by_cases hws : ws = []
    · subst hws
      rw [chunksIdx_nil]
      simp
    · rw [chunksIdx_cons s (s - v) (by omega) ws hws]
      rw [List.map_cons, List.flatten_cons]
      rw [ih (ws.drop (s - v)) (by
        rw [List.length_drop]
        have := List.length_pos.mpr hws
        omega)]
      rw [List.drop_take]
      rw [List.drop_drop]
      rw [show s - v + v = s from by omega]
      rw [show ws.drop s = (ws.drop v).drop (s - v) from by
        rw [List.drop_drop]
        congr 1
        omega]
      exact List.take_append_drop _ _

/-- Chunk coverage at the word level: for chunk size `s` and overlap
`v < s` (step `s - v`), concatenating the chunks with the overlap removed
from every chunk after the first reconstructs the input. -/
theorem chunksIdx_cover {α : Type} (s v : ℕ) (hv : v < s) (ws : List α) :
    joinChunksDropOverlap v (chunksIdx s (s - v) ws) = ws := by
  by_cases hws : ws = []
  · subst hws
    rw [chunksIdx_nil]
    rfl
  · rw [chunksIdx_cons s (s - v) (by omega) ws hws]
    show ws.take s
        ++ ((chunksIdx s (s - v) (ws.drop (s - v))).map (fun w => w.drop v)).flatten = ws
    rw [chunksIdx_drop_flatten s v hv (ws.drop (s - v)).length (ws.drop (s - v)) le_rfl]
    rw [List.drop_drop]
    rw [show s - v + v = s from by omega]
    exact List.take_append_drop s ws

/-- The slice of the chunker, `words[i : i+size]` for a loop index `i ≥ 0`
and a positive size, is a plain `drop`-then-`take`. -/
theorem pySliceFromTo_eq {α : Type} (l : List α) (i : ℕ) (size : ℤ) (hs : 0 ≤ size) :
    pySliceFromTo l i ((i : ℤ) + size) = (l.drop i).take size.toNat := by
  unfold pySliceFromTo
  rw [if_neg (by omega : ¬((i : ℤ) + size < 0))]
  rw [List.drop_take]
  apply List.take_eq_take.mpr
  rw [List.length_drop]
  omega

/-- C8: for every text and every `size > overlap > 0`, the chunker
succeeds, and concatenating its output chunks with the `overlap` leading
words removed from each chunk after the first reconstructs the original
whitespace-split word sequence of the text. -/
theorem c8_chunk_coverage (text : String) (size overlap : ℤ)
    (h1 : 0 < overlap) (h2 : overlap < size) :
    ∃ chunks, chunk_text text size overlap = Except.ok chunks ∧
      joinChunksDropOverlap overlap.toNat (chunks.map (fun c => pyWords c.toList))
        = pyWords text.toList := by
  have hstep0 : ¬(size - overlap = 0) := by omega
  have hstepneg : ¬(size - overlap < 0) := by omega
  refine ⟨(rangeUp (pyWords text.toList).length (size - overlap).toNat 0).map
      (fun i => String.mk (List.intercalate [' ']
        (pySliceFromTo (pyWords text.toList) i ((i : ℤ) + size)))), ?_, ?_⟩
  · unfold chunk_text
    rw [if_neg hstep0, if_neg hstepneg]
  · rw [List.map_map]
    rw [List.map_congr_left (g := fun i => ((pyWords text.toList).drop i).take size.toNat)
      (fun i _ => by
        show pyWords (String.toList (String.mk (List.intercalate [' ']
          (pySliceFromTo (pyWords text.toList) i ((i : ℤ) + size))))) = _
        rw [show ∀ l : List Char, String.toList (String.mk l) = l from fun l => rfl]
        rw [pySliceFromTo_eq (pyWords text.toList) i size (by omega)]
        refine pyWords_intercalate _ (fun w hw => ?_)
        exact pyWords_props text.toList w
          (List.drop_subset _ _ (List.take_subset _ _ hw)))]
    have hts : (size - overlap).toNat = size.toNat - overlap.toNat := by omega
    have hvs : overlap.toNat < size.toNat := by omega
    show joinChunksDropOverlap overlap.toNat
      (chunksIdx size.toNat ((size - overlap).toNat) (pyWords text.toList))
        = pyWords text.toList
    rw [hts]
    exact chunksIdx_cover size.toNat overlap.toNat hvs (pyWords text.toList)

/-- C8 witness: text `"a b c d e"`, `size = 3`, `overlap = 1` — chunks
`["a b c", "c d e", "e"]`, which reconstruct the five words. -/
theorem c8_witness :
    ∃ chunks, chunk_text "a b c d e" 3 1 = Except.ok chunks ∧
      joinChunksDropOverlap (1 : ℤ).toNat (chunks.map (fun c => pyWords c.toList))
        = pyWords ("a b c d e" : String).toList :=
  c8_chunk_coverage "a b c d e" 3 1 (by omega) (by omega)

/-! ## C1 — highlight span bounds -/

/-- A left fold of `Nat.min` never exceeds its initial value. -/
theorem foldl_min_le_init : ∀ (xs : List ℕ) (x : ℕ), xs.foldl Nat.min x ≤ x := by
  intro xs
  induction xs with
  | nil => intro x; exact le_rfl
  | cons y ys ih =>
    intro x
    calc ys.foldl Nat.min (Nat.min x y) ≤ Nat.min x y := ih (Nat.min x y)
      _ ≤ x := Nat.min_le_left x y

/-- A left fold of `Nat.max` is at least its initial value. -/
theorem init_le_foldl_max : ∀ (xs : List ℕ) (x : ℕ), x ≤ xs.foldl Nat.max x := by
  intro xs
  induction xs with
  | nil => intro x; exact le_rfl
  | cons y ys ih =>
    intro x
    calc x ≤ Nat.max x y := Nat.le_max_left x y
      _ ≤ ys.foldl Nat.max (Nat.max x y) := ih (Nat.max x y)

/-- `min(l) <= max(l)` (with the empty-list defaults agreeing). -/
theorem pyMin_le_pyMax (l : List ℕ) : pyMin l ≤ pyMax l := by
  cases l with
  | nil => exact le_rfl
  | cons x xs =>
    calc xs.foldl Nat.min x ≤ x := foldl_min_le_init xs x
      _ ≤ xs.foldl Nat.max x := init_le_foldl_max xs x

/-- `min(l)` respects any upper bound satisfied by all elements. -/
theorem pyMin_le_of_bound (l : List ℕ) (b : ℕ) (hb : ∀ x ∈ l, x ≤ b) :
    pyMin l ≤ b := by
  cases l with
  | nil => exact Nat.zero_le b
  | cons x xs =>
    calc xs.foldl Nat.min x ≤ x := foldl_min_le_init xs x
      _ ≤ b := hb x (by simp)

/-- A found position never exceeds the haystack length. -/
theorem pyFindOpt_le (s w : List Char) (m : ℕ) (h : pyFindOpt s w = some m) :
    m ≤ s.length := by
  unfold pyFindOpt at h
  have hm := List.mem_of_find?_eq_some h
  have := List.mem_range.mp hm
  omega

/-- A fold preserves any invariant its step function preserves. -/
theorem foldl_invariant {α β : Type} (P : α → Prop) (f : α → β → α) :
    ∀ (l : List β) (a : α), P a → (∀ x b, b ∈ l → P x → P (f x b)) → P (l.foldl f a) := by
  intro l
  induction l with
  | nil => intro a ha _; exact ha
  | cons b bs ih =>
    intro a ha hstep
    rw [List.foldl_cons]
    exact ih (f a b) (hstep a b (by simp) ha)
      (fun x c hc hx => hstep x c (by simp [hc]) hx)

/-- Each character's lowercase expansion has at most two characters
(exactly two only for U+0130), matching full Unicode lowercasing. -/
theorem pyCharLower_length_le (c : Char) : (pyCharLower c).length ≤ 2 := by
  unfold pyCharLower
  split
  · simp
  · simp

/-- `str.lower()` at most doubles the length of a string. -/
theorem pyLower_length_le (l : List Char) : (pyLower l).length ≤ 2 * l.length := by
  unfold pyLower
  induction l with
  | nil => simp
  | cons c cs ih =>
    rw [List.map_cons, List.flatten_cons, List.length_append]
    have := pyCharLower_length_le c
    simp only [List.length_cons]
    omega

/-- One window iteration keeps both span components at or below
`2 * len(content)`.  (`cl` is `content_lower`, whose length is bounded by
`2 * len(content)` but need not equal it: `str.lower()` can lengthen the
string.) -/
theorem windowStep_bounds (cl : List Char) (qwords : List (List Char))
    (clen wsize : ℕ) (hcl : cl.length ≤ 2 * clen) (st : ℚ × ℕ × ℕ) (i : ℕ)
    (hi : i < clen)
    (h : st.2.1 ≤ 2 * clen ∧ st.2.2 ≤ 2 * clen) :
    (windowStep cl qwords clen wsize st i).2.1 ≤ 2 * clen ∧
    (windowStep cl qwords clen wsize st i).2.2 ≤ 2 * clen := by
  unfold windowStep
  dsimp only
  split
  · exact h
  next hm =>
    set mp := qwords.filterMap (fun w => pyFindOpt ((cl.drop i).take wsize) w) with hmp
    have hwl : ((cl.drop i).take wsize).length ≤ cl.length - i := by
      rw [List.length_take, List.length_drop]
      omega
    have hbound : ∀ p ∈ mp, p ≤ cl.length - i := by
      intro p hp
      rcases List.mem_filterMap.mp hp with ⟨w, _, hfind⟩
      have := pyFindOpt_le _ _ _ hfind
      omega
    have hminb : pyMin mp ≤ cl.length - i := pyMin_le_of_bound mp (cl.length - i) hbound
    have hupd : i + (pyMin mp - 20) ≤ 2 * clen ∧
        i + min clen (pyMax mp + (qwords.getLastD []).length + 20) ≤ 2 * clen :=
      ⟨by omega, by omega⟩
    split
    · split
      · exact hupd
      · exact h
    · split
      · exact hupd
      · exact h

/-- C1 (amended): for every content and query, the highlight span
satisfies `0 <= start <= 2 * len(content)` and
`0 <= end <= 2 * len(content)`.  The claimed chain
`0 <= start <= end <= len(content)` fails in both directions:
`best_end = i + min(len(content), last_match + 20)` clamps *before*
adding the window offset `i`, so `end` can overshoot `len(content)`; and
because `str.lower()` can lengthen the string (U+0130 expands to two
characters) while the window offsets and the clamp use `len(content)`,
match positions inside `content_lower` can push `start` beyond both `end`
and `len(content)`.  See the counterexample for concrete inputs
exhibiting each failure. -/
theorem c1_amended (content query : String) :
    (find_best_match content query).1 ≤ 2 * content.toList.length ∧
    (find_best_match content query).2 ≤ 2 * content.toList.length := by
  unfold find_best_match
  dsimp only
  split
  · exact ⟨Nat.zero_le _, Nat.zero_le _⟩
  · have hcl : (pyLower content.toList).length ≤ 2 * content.toList.length :=
      pyLower_length_le content.toList
    have hfold := foldl_invariant
      (P := fun st : ℚ × ℕ × ℕ => st.2.1 ≤ 2 * content.toList.length ∧
        st.2.2 ≤ 2 * content.toList.length)
      (f := fun st wsize => (rangeUp content.toList.length (wsize / 2) 0).foldl
        (windowStep (pyLower content.toList) (queryWordsOf query)
          content.toList.length wsize) st)
      [100, 200, 300] ((-1 : ℚ), 0, 0)
      ⟨Nat.zero_le _, Nat.zero_le _⟩
      (fun st wsize _ hst => foldl_invariant _ _
        (rangeUp content.toList.length (wsize / 2) 0) st hst
        (fun x j hj hx => windowStep_bounds _ _ _ _ hcl x j
          (rangeUp_mem _ _ _ j hj).2 hx))
    exact hfold

set_option maxRecDepth 400000 in
/-- C1 counterexample, in two parts.  On `c1content` (ASCII, length 60)
and query `"zzz"`, the winning window is the one at offset `i = 50` of
size 100 (scoring `2 + 1 + 0.95`), and the scorer returns `(50, 78)`:
its end `78` exceeds `len(content) = 60`, refuting `end <= len(content)`.
On `c1contentU` (43 copies of U+0130, then `zzz`, then 14 `a`s;
`len(content) = 60` but `content_lower` has length 103) the winning
window is size 300 at offset 0 (`first_match = 86`), and the scorer
returns `(66, 60)`: its start `66` exceeds both the end `60` and
`len(content) = 60`, refuting `start <= end` and
`start <= len(content)`. -/
theorem c1_counterexample :
    find_best_match c1content "zzz" = (50, 78) ∧
    c1content.toList.length = 60 ∧ ¬(78 ≤ 60) ∧
    find_best_match c1contentU "zzz" = (66, 60) ∧
    c1contentU.toList.length = 60 ∧ ¬(66 ≤ 60) := by
  refine ⟨by with_unfolding_all rfl, by rfl, by omega,
    by with_unfolding_all rfl, by rfl, by omega⟩
